import Mathlib

/-!
Verification of the DynPrompt expansion engine
(`dynprompt/expander.py` and `comfy_nodes.py`).

The Python sources are shallowly embedded below.  Text is modelled as
`List Char` (`String` is used at API boundaries); Python integers are `Int`
(counters, which are always non-negative, are `Nat`); the wildcard directory
contents are modelled by a `Corpus`: an association list from normalized
relative file paths (e.g. "clothes/tops.txt") to the file's list of lines.
`hashlib.md5` is implemented in full (RFC 1321) over `Nat` with explicit
`% 2^32`.  Loops of the source that are not structurally recursive are
embedded with an explicit fuel argument; where the source itself bounds the
loop (`range(limit)`) the fuel is exactly the source's limit, and where the
source loop is unbounded (`while True` in `_collect_mirrors_deep`) the
embedding returns `none` on fuel exhaustion so that non-termination of the
source corresponds to `none` for every fuel.
-/

set_option maxRecDepth 40000

set_option maxHeartbeats 2000000

namespace DynPrompt

/-! ## Python character/string primitives -/

/-- Left brace character (written via code to keep sources free of raw braces). -/
def lbrace : Char := '\x7b'

/-- Right brace character. -/
def rbrace : Char := '\x7d'

/-- Python `str.strip()` whitespace (ASCII portion, which is all the engine uses). -/
def isPySpace (c : Char) : Bool :=
  c == ' ' || c == '\t' || c == '\n' || c == '\r' || c == '\x0b' || c == '\x0c'

/-- Drop matching characters from the end of a list. -/
def dropEndWhile (p : Char → Bool) (l : List Char) : List Char :=
  (l.reverse.dropWhile p).reverse

/-- Python `str.strip()` (no arguments): trim whitespace at both ends. -/
def pyStrip (l : List Char) : List Char :=
  dropEndWhile isPySpace (l.dropWhile isPySpace)

/-- Python `str.strip()` on `String`. -/
def pyStripS (s : String) : String := String.mk (pyStrip s.data)

/-- Python `s.split(sep)` for a one-character separator: split at every
occurrence, preserving empty pieces. -/
def splitOnChar (sep : Char) : List Char → List (List Char)
  | [] => [[]]
  | c :: rest =>
    if c = sep then [] :: splitOnChar sep rest
    else
      match splitOnChar sep rest with
      | [] => [[c]]
      | p :: ps => (c :: p) :: ps

/-- Python `", ".join(...)` over strings. -/
def joinCommaSpace : List String → List Char
  | [] => []
  | [x] => x.data
  | x :: rest => x.data ++ ',' :: ' ' :: joinCommaSpace rest

/-- Python `str.lower()` for ASCII letters (all the corpus keys use). -/
def toLowerAscii (c : Char) : Char :=
  if 65 ≤ c.toNat ∧ c.toNat ≤ 90 then Char.ofNat (c.toNat + 32) else c

/-- `enumerate` starting at a given index. -/
def enumFrom : Nat → List α → List (Nat × α)
  | _, [] => []
  | k, x :: rest => (k, x) :: enumFrom (k + 1) rest

def between (lo hi n : Nat) : Bool := Nat.ble lo n && Nat.ble n hi

def headIsSpace : List Char → Bool
  | c :: _ => isPySpace c
  | [] => false

def containsChar (ch : Char) (l : List Char) : Bool := l.any (fun c => c == ch)

/-! ## MD5 (RFC 1321) over `Nat` with explicit `% 2^32` -/

def m32 : Nat := 4294967296

def mask32 : Nat := 4294967295

def add32 (a b : Nat) : Nat := (a + b) % m32

def rotl32 (x s : Nat) : Nat := ((x <<< s) ||| (x >>> (32 - s))) &&& mask32

def not32 (x : Nat) : Nat := mask32 - x

/-- Per-operation 32-bit rotation amounts of MD5. -/
def md5Shift : List Nat :=
  [7, 12, 17, 22, 7, 12, 17, 22, 7, 12, 17, 22, 7, 12, 17, 22,
   5, 9, 14, 20, 5, 9, 14, 20, 5, 9, 14, 20, 5, 9, 14, 20,
   4, 11, 16, 23, 4, 11, 16, 23, 4, 11, 16, 23, 4, 11, 16, 23,
   6, 10, 15, 21, 6, 10, 15, 21, 6, 10, 15, 21, 6, 10, 15, 21]

/-- Per-operation additive constants of MD5. -/
def md5K : List Nat :=
  [0xd76aa478, 0xe8c7b756, 0x242070db, 0xc1bdceee,
   0xf57c0faf, 0x4787c62a, 0xa8304613, 0xfd469501,
   0x698098d8, 0x8b44f7af, 0xffff5bb1, 0x895cd7be,
   0x6b901122, 0xfd987193, 0xa679438e, 0x49b40821,
   0xf61e2562, 0xc040b340, 0x265e5a51, 0xe9b6c7aa,
   0xd62f105d, 0x02441453, 0xd8a1e681, 0xe7d3fbc8,
   0x21e1cde6, 0xc33707d6, 0xf4d50d87, 0x455a14ed,
   0xa9e3e905, 0xfcefa3f8, 0x676f02d9, 0x8d2a4c8a,
   0xfffa3942, 0x8771f681, 0x6d9d6122, 0xfde5380c,
   0xa4beea44, 0x4bdecfa9, 0xf6bb4b60, 0xbebfbc70,
   0x289b7ec6, 0xeaa127fa, 0xd4ef3085, 0x04881d05,
   0xd9d4d039, 0xe6db99e5, 0x1fa27cf8, 0xc4ac5665,
   0xf4292244, 0x432aff97, 0xab9423a7, 0xfc93a039,
   0x655b59c3, 0x8f0ccc92, 0xffeff47d, 0x85845dd1,
   0x6fa87e4f, 0xfe2ce6e0, 0xa3014314, 0x4e0811a1,
   0xf7537e82, 0xbd3af235, 0x2ad7d2bb, 0xeb86d391]

/-- One MD5 operation on the state `(a, b, c, d)`. -/
def md5Op (w : List Nat) (st : Nat × Nat × Nat × Nat) (i : Nat) : Nat × Nat × Nat × Nat :=
  let (a, b, c, d) := st
  let f :=
    if i < 16 then (b &&& c) ||| ((not32 b) &&& d)
    else if i < 32 then (d &&& b) ||| ((not32 d) &&& c)
    else if i < 48 then b ^^^ c ^^^ d
    else c ^^^ (b ||| (not32 d))
  let g :=
    if i < 16 then i
    else if i < 32 then (5 * i + 1) % 16
    else if i < 48 then (3 * i + 5) % 16
    else (7 * i) % 16
  let tmp := add32 (add32 (add32 f a) (md5K.getD i 0)) (w.getD g 0)
  (d, add32 b (rotl32 tmp (md5Shift.getD i 0)), b, c)

/-- Split 64 bytes into 16 little-endian 32-bit words. -/
def md5Words : List Nat → List Nat
  | b0 :: b1 :: b2 :: b3 :: rest =>
      (b0 + b1 * 256 + b2 * 65536 + b3 * 16777216) :: md5Words rest
  | _ => []

/-- Process one 64-byte block. -/
def md5Block (st : Nat × Nat × Nat × Nat) (block : List Nat) : Nat × Nat × Nat × Nat :=
  let w := md5Words block
  let (a0, b0, c0, d0) := st
  let (a, b, c, d) := (List.range 64).foldl (md5Op w) st
  (add32 a0 a, add32 b0 b, add32 c0 c, add32 d0 d)

def chunk64Aux : Nat → List Nat → List (List Nat)
  | 0, _ => []
  | _, [] => []
  | fuel + 1, l => l.take 64 :: chunk64Aux fuel (l.drop 64)

/-- Split a byte list into 64-byte blocks (the fuel `l.length` always
suffices since each step consumes at least one byte). -/
def chunk64 (l : List Nat) : List (List Nat) := chunk64Aux l.length l

/-- Little-endian bytes of a value, fixed width. -/
def leBytes : Nat → Nat → List Nat
  | 0, _ => []
  | n + 1, v => (v % 256) :: leBytes n (v / 256)

/-- MD5 padding: `0x80`, zeros to 56 mod 64, then the 64-bit little-endian
bit length. -/
def md5Pad (msg : List Nat) : List Nat :=
  let len := msg.length
  let zeros := (120 - ((len + 1) % 64)) % 64
  msg ++ [128] ++ List.replicate zeros 0 ++ leBytes 8 ((8 * len) % (2 ^ 64))

/-- MD5 digest of a byte list, as the 16 digest bytes in output order. -/
def md5Digest (msg : List Nat) : List Nat :=
  let blocks := chunk64 (md5Pad msg)
  let (a, b, c, d) :=
    blocks.foldl md5Block (0x67452301, 0xefcdab89, 0x98badcfe, 0x10325476)
  leBytes 4 a ++ leBytes 4 b ++ leBytes 4 c ++ leBytes 4 d

/-- Python `int(hexdigest, 16)`: the digest bytes read as a big-endian
base-256 number, matching Python's reading of the lowercase hex string. -/
def md5Int (msg : List Nat) : Nat :=
  (md5Digest msg).foldl (fun acc b => acc * 256 + b) 0

/-- UTF-8 encoding of one code point. -/
def utf8Char (n : Nat) : List Nat :=
  if n < 128 then [n]
  else if n < 2048 then [192 + n / 64, 128 + n % 64]
  else if n < 65536 then [224 + n / 4096, 128 + (n / 64) % 64, 128 + n % 64]
  else [240 + n / 262144, 128 + (n / 4096) % 64, 128 + (n / 64) % 64, 128 + n % 64]

/-- Python `s.encode("utf-8")`. -/
def utf8Encode (s : String) : List Nat :=
  s.data.flatMap (fun c => utf8Char c.toNat)

/-- `hashlib.md5(s.encode("utf-8")).hexdigest()` read back via `int(h, 16)`. -/
def md5OfString (s : String) : Nat := md5Int (utf8Encode s)

/-! ## `_stable_pick_index` (expander.py lines 102-109) -/

/-- `_stable_pick_index(seed, salt, n)`: deterministic index picker.
`int(h, 16) % n` for positive `n` agrees between Python and `Int.emod`
because the hash value is non-negative. -/
def stablePickIndex (seed : Int) (salt : String) (n : Int) : Int :=
  if n ≤ 0 then 0
  else (Int.ofNat (md5OfString (toString seed ++ ":" ++ salt))) % n

/-! ## Grammar primitives (expander.py lines 21-99) -/

/-- `_split_choices_keep_empty`: split a non-nested brace body on `|`,
trimming each option, keeping empties. -/
def splitChoicesKeepEmpty (s : List Char) : List (List Char) :=
  (splitOnChar '|' s).map pyStrip

/-- Loop of `_split_top_level_alts`: `buf` accumulates the current alternate,
`depth` is the running brace depth (an `int` in the source; it may go
negative on stray closers). -/
def splitTLAux : List Char → Int → List Char → List (List Char)
  | [], _, buf => [pyStrip buf]
  | c :: rest, depth, buf =>
    if c = '|' ∧ depth = 0 then pyStrip buf :: splitTLAux rest depth []
    else if c = lbrace then splitTLAux rest (depth + 1) (buf ++ [c])
    else if c = rbrace then splitTLAux rest (depth - 1) (buf ++ [c])
    else splitTLAux rest depth (buf ++ [c])

/-- `_split_top_level_alts`: split on top-level `|`, honoring nesting,
keeping empty alternates. -/
def splitTopLevelAlts (s : List Char) : List (List Char) := splitTLAux s 0 []

/-- Index of the first occurrence of a character. -/
def idxOfChar (ch : Char) : List Char → Option Nat
  | [] => none
  | c :: rest => if c = ch then some 0 else (idxOfChar ch rest).map (· + 1)

/-- The `while j < len(expr)` scan of `_flatten_brace_expr`: starting at the
opening brace, track depth and return the offset of the matching closer. -/
def findCloseAux : List Char → Int → Option Nat
  | [], _ => none
  | c :: rest, depth =>
    let depth' := if c = lbrace then depth + 1 else if c = rbrace then depth - 1 else depth
    if c = rbrace ∧ depth' = 0 then some 0
    else (findCloseAux rest depth').map (· + 1)

/-- Decompose `expr` as `pre ++ "{" ++ inner ++ "}" ++ post` at the first
opening brace and its matching closer; `none` when there is no opening brace
or it is unmatched (both make `_flatten_brace_expr` return `[expr.strip()]`). -/
def firstBraceSplit (expr : List Char) : Option (List Char × List Char × List Char) :=
  match idxOfChar lbrace expr with
  | none => none
  | some i =>
    match findCloseAux (expr.drop i) 0 with
    | none => none
    | some joff =>
      some (expr.take i, (expr.drop (i + 1)).take (joff - 1), expr.drop (i + joff + 1))

/-- Recursion of `_flatten_brace_expr`, fuel-structural.  The source recurses
on strictly shorter strings (each alternate of `inner` and `post` are shorter
than `expr` by at least the two brace characters), so fuel `expr.length`
always suffices and the fuel-0 case is never reached on the top-level call. -/
def flattenAux : Nat → List Char → List (List Char)
  | 0, expr => [pyStrip expr]
  | fuel + 1, expr =>
    match firstBraceSplit expr with
    | none => [pyStrip expr]
    | some (pre, inner, post) =>
      (splitTopLevelAlts inner).flatMap (fun alt =>
        (flattenAux fuel alt).flatMap (fun altExp =>
          (flattenAux fuel post).map (fun postExp => pyStrip (pre ++ altExp ++ postExp))))

/-- `_flatten_brace_expr`: expand all nesting into leaf strings. -/
def flattenBraceExpr (expr : List Char) : List (List Char) := flattenAux expr.length expr

/-- Key used by `_dedup_preserve`: `x.strip().lower()`. -/
def lowerKey (l : List Char) : List Char := (pyStrip l).map toLowerAscii

def dedupAux : List (List Char) → List (List Char) → List (List Char)
  | [], _ => []
  | x :: rest, seen =>
    let key := lowerKey x
    if key ∈ seen then dedupAux rest seen
    else pyStrip x :: dedupAux rest (key :: seen)

/-- `_dedup_preserve`: drop case-insensitive duplicates, keep first
appearance, emitting `x.strip()`. -/
def dedupPreserve (l : List (List Char)) : List (List Char) := dedupAux l []

/-! ## Wildcard file model and resolver (expander.py lines 171-238) -/

/-- The file system under the wildcard root: association list from
normalized relative path (e.g. "clothes/tops.txt") to the file's lines. -/
abbrev Corpus := List (String × List String)

def findFile : Corpus → String → Option (List String)
  | [], _ => none
  | (k, v) :: rest, p => if k = p then some v else findFile rest p

/-- `token.replace("\\", "/")`. -/
def replaceBackslash (l : List Char) : List Char :=
  l.map (fun c => if c = '\\' then '/' else c)

/-- `token.lstrip("/.")`. -/
def lstripSlashDot (l : List Char) : List Char :=
  l.dropWhile (fun c => c == '/' || c == '.')

def intercalateSlash : List (List Char) → List Char
  | [] => []
  | [x] => x
  | x :: rest => x ++ '/' :: intercalateSlash rest

/-- `os.path.normpath` on a relative path containing no ".." segment
(the caller has already rejected those): drop empty and "." segments. -/
def normRelSegs (l : List Char) : List (List Char) :=
  (splitOnChar '/' l).filter (fun s => !(s == []) && !(s == ['.']))

def normRelPath (l : List Char) : List Char := intercalateSlash (normRelSegs l)

/-- `_normalize_token_to_path` (expander.py lines 227-238), relative to the
root.  After the ".."-segment rejection the joined path
`normpath(join(base, token + ".txt"))` cannot escape `base`, so the
`p.startswith(base)` check always passes and the result is `base` joined
with the normalized relative path returned here.  The `os.path.isfile`
check is performed by `resolveFile` via the corpus. -/
def normalizeTokenToPath (dir : String) (token : String) : Option String :=
  if dir = "" then none
  else
    let t := lstripSlashDot (replaceBackslash token.data)
    if ['.', '.'] ∈ splitOnChar '/' t then none
    else some (String.mk (normRelPath (t ++ ".txt".data)))

/-- Path normalization plus the `os.path.isfile` check: the lines of the
file the token resolves to, if that file exists. -/
def resolveFile (dir : String) (corpus : Corpus) (token : String) : Option (List String) :=
  match normalizeTokenToPath dir token with
  | none => none
  | some p => findFile corpus p

/-- One line of the read loop of `read_options_for_token`:
`t = line.rstrip("\n\r").strip()`, skipping blanks and `#` comments. -/
def parsedLine (line : String) : Option String :=
  let t := pyStrip (dropEndWhile (fun c => c == '\n' || c == '\r') line.data)
  if t = [] then none
  else if t.head? = some '#' then none
  else some (String.mk t)

/-- The surviving (non-blank, non-comment) lines, in order (`raw`). -/
def parseLines (lines : List String) : List String := lines.filterMap parsedLine

/-- `token.endswith("-mir")`. -/
def endsWithMir (token : String) : Bool :=
  token.data.reverse.take 4 == ['r', 'i', 'm', '-']

/-- `re.fullmatch(r"\x7b(.*)\x7d", line)`: the whole line must be
brace-wrapped, and `.` does not match a newline, so the interior must be
newline-free; returns the interior. -/
def fullmatchBraceLine (line : List Char) : Option (List Char) :=
  match line with
  | [] => none
  | c :: rest =>
    if c = lbrace ∧ rest ≠ [] ∧ rest.getLast? = some rbrace ∧ '\n' ∉ rest.dropLast
    then some rest.dropLast else none

/-- `read_options_for_token` (expander.py lines 171-223). -/
def readOptionsForToken (dir : String) (corpus : Corpus) (token : String) : List String :=
  match resolveFile dir corpus token with
  | none => []
  | some fileLines =>
    let raw := parseLines fileLines
    match raw with
    | [] => []
    | [line] =>
      let l := line.data
      if containsChar lbrace l ∧ containsChar rbrace l then
        if endsWithMir token then
          (dedupPreserve (flattenBraceExpr l)).map String.mk
        else
          match fullmatchBraceLine l with
          | some inner => (splitTopLevelAlts inner).map String.mk
          | none => [line]
      else [line]
    | _ => raw

/-! ## The expander (expander.py lines 116-311) -/

/-- `PromptExpander` instance state: configuration plus the two mutable
decision counters. -/
structure Expander where
  seed : Int
  wildcardDir : String
  variety : Int
  choiceCounter : Nat
  wildCounter : Nat
deriving Repr, DecidableEq

/-- `PromptExpander.__init__`: counters start at zero. -/
def mkExpander (seed : Int) (dir : String) (variety : Int) : Expander :=
  ⟨seed, dir, variety, 0, 0⟩

/-- `self._salt_extra`. -/
def saltExtra (e : Expander) : String :=
  if e.variety = 0 then "" else ":v" ++ toString e.variety

/-- `_reset_counters`. -/
def resetCounters (e : Expander) : Expander :=
  { e with choiceCounter := 0, wildCounter := 0 }

/-- `_pick_choice_index`: pick from the choice lane, advancing the counter. -/
def pickChoiceIndex (e : Expander) (n : Nat) : Int × Expander :=
  (stablePickIndex e.seed ("choice#" ++ toString e.choiceCounter ++ saltExtra e) (Int.ofNat n),
   { e with choiceCounter := e.choiceCounter + 1 })

/-- `_pick_wild_index`: pick from the wildcard lane, salted with the token,
advancing the counter. -/
def pickWildIndex (e : Expander) (token : String) (n : Nat) : Int × Expander :=
  (stablePickIndex e.seed
     ("wild#" ++ toString e.wildCounter ++ ":" ++ token ++ saltExtra e) (Int.ofNat n),
   { e with wildCounter := e.wildCounter + 1 })

def notBraceChar (c : Char) : Bool := !(c == lbrace) && !(c == rbrace)

/-- `INNER_BRACE_RE.search`: leftmost `\x7b[^\x7b\x7d]*\x7d` match, returned
as (start, end, inner text). -/
def findInnerBrace : List Char → Option (Nat × Nat × List Char)
  | [] => none
  | c :: rest =>
    let onTail := (findInnerBrace rest).map (fun t => (t.1 + 1, t.2.1 + 1, t.2.2))
    if c = lbrace then
      let run := rest.takeWhile notBraceChar
      match rest.dropWhile notBraceChar with
      | d :: _ => if d = rbrace then some (0, run.length + 2, run) else onTail
      | [] => onTail
    else onTail

/-- Characters allowed in a wildcard token name: `[A-Za-z0-9_/.-]`. -/
def isTokChar (c : Char) : Bool :=
  between 65 90 c.toNat || between 97 122 c.toNat || between 48 57 c.toNat ||
  c == '_' || c == '-' || c == '/' || c == '.'

/-- Largest index `k` with underscores at positions `k` and `k+1`. -/
def lastDoubleUnderscore : List Char → Option Nat
  | [] => none
  | [_] => none
  | c :: d :: rest =>
    match lastDoubleUnderscore (d :: rest) with
    | some k => some (k + 1)
    | none => if c = '_' ∧ d = '_' then some 0 else none

/-- Greedy backtracking of `([A-Za-z0-9_/.-]+)__` after an opening `__`:
the regex takes the maximal run of token characters and backs off to the
largest `k ≥ 1` such that the run has `__` right after its first `k`
characters (the closing underscores are themselves token characters, so
they sit inside the maximal run). -/
def greedyTokenSplit (run : List Char) : Option Nat :=
  match run with
  | [] => none
  | _ :: rest => (lastDoubleUnderscore rest).map (· + 1)

/-- `WILDCARD_TOKEN_RE.search`: leftmost `__([A-Za-z0-9_/.-]+)__` match as
(start, end, token name).  Fuel-structural scan over start positions; fuel
`s.length` always suffices. -/
def findWildcardAux : Nat → List Char → Option (Nat × Nat × List Char)
  | 0, _ => none
  | fuel + 1, s =>
    match s with
    | '_' :: '_' :: rest =>
      let run := rest.takeWhile isTokChar
      (match greedyTokenSplit run with
       | some k => some (0, k + 4, run.take k)
       | none =>
         (findWildcardAux fuel ('_' :: rest)).map (fun t => (t.1 + 1, t.2.1 + 1, t.2.2)))
    | _ :: rest =>
      (findWildcardAux fuel rest).map (fun t => (t.1 + 1, t.2.1 + 1, t.2.2))
    | [] => none

def findWildcard (s : List Char) : Option (Nat × Nat × List Char) :=
  findWildcardAux s.length s

/-- `_expand_choices_once` (expander.py lines 242-253). -/
def expandChoicesOnce (e : Expander) (s : List Char) : List Char × Expander :=
  match findInnerBrace s with
  | none => (s, e)
  | some (start, stop, inner) =>
    let options := splitChoicesKeepEmpty inner
    if options = [] then (s, e)
    else
      let (idx, e') := pickChoiceIndex e options.length
      let chosen := options.getD idx.toNat []
      (s.take start ++ chosen ++ s.drop stop, e')

/-- `_expand_choices_recursively` (limit 64 at both call sites). -/
def expandChoicesRec (limit : Nat) (e : Expander) (s : List Char) : List Char × Expander :=
  match limit with
  | 0 => (s, e)
  | n + 1 =>
    if (findInnerBrace s).isNone then (s, e)
    else
      let (s', e') := expandChoicesOnce e s
      expandChoicesRec n e' s'

/-- `collapse_choices`: reset counters, then collapse braces. -/
def collapseChoices (e : Expander) (text : String) : List Char × Expander :=
  expandChoicesRec 64 (resetCounters e) text.data

/-- The comprehension `[o for i, o in enumerate(options) if i != idx and
o.strip()]`, shared by the negative-phase join (expander.py line 283) and
the mirror bag (comfy_nodes.py line 70). -/
def mirrorOthers (options : List String) (idx : Int) : List String :=
  ((enumFrom 0 options).filter
    (fun p => (Int.ofNat p.1 != idx) && !(pyStrip p.2.data == []))).map (fun p => p.2)

/-- `_expand_wildcards_once` (expander.py lines 264-285). -/
def expandWildcardsOnce (corpus : Corpus) (e : Expander) (phase : String) (s : List Char) :
    List Char × Expander :=
  match findWildcard s with
  | none => (s, e)
  | some (start, stop, tokenChars) =>
    let token := String.mk tokenChars
    let options := readOptionsForToken e.wildcardDir corpus token
    if options = [] then (s.take start ++ s.drop stop, e)
    else
      let (idx, e') := pickWildIndex e token options.length
      let chosen :=
        if 0 ≤ idx ∧ idx < Int.ofNat options.length then (options.getD idx.toNat "").data
        else []
      let core :=
        if phase = "pos" then chosen
        else joinCommaSpace (mirrorOthers options idx)
      (s.take start ++ core ++ s.drop stop, e')

/-- `_expand_wildcards_recursively` (limit 128 at the call site). -/
def expandWildcardsRec (corpus : Corpus) (limit : Nat) (e : Expander) (phase : String)
    (s : List Char) : List Char × Expander :=
  match limit with
  | 0 => (s, e)
  | n + 1 =>
    if (findWildcard s).isNone then (s, e)
    else
      let (s', e') := expandWildcardsOnce corpus e phase s
      expandWildcardsRec corpus n e' phase s'

/-! ## Separator cleanup (expander.py lines 309-310) -/

/-- Head match of `\s*,\s*,\s*`: on success, the remainder after the match
(the trailing `\s*` is greedy). -/
def matchDupComma (s : List Char) : Option (List Char) :=
  match s.dropWhile isPySpace with
  | c :: r2 =>
    if c = ',' then
      match r2.dropWhile isPySpace with
      | d :: r4 => if d = ',' then some (r4.dropWhile isPySpace) else none
      | [] => none
    else none
  | [] => none

/-- `re.sub(r"\s*,\s*,\s*", ", ", s)`: scan left to right, replacing each
non-overlapping match and resuming after it.  Fuel-structural; every step
consumes at least one character so fuel `s.length` always suffices. -/
def collapseDupCommasAux : Nat → List Char → List Char
  | 0, s => s
  | fuel + 1, s =>
    match s with
    | [] => []
    | c :: rest =>
      match matchDupComma s with
      | some r => ',' :: ' ' :: collapseDupCommasAux fuel r
      | none => c :: collapseDupCommasAux fuel rest

def collapseDupCommas (s : List Char) : List Char := collapseDupCommasAux s.length s

/-- `re.sub(r"\s\x7b2,\x7d", " ", s)`: each maximal whitespace run of length
at least two becomes a single space. -/
def collapseWsAux : Nat → List Char → List Char
  | 0, s => s
  | fuel + 1, s =>
    match s with
    | [] => []
    | c :: rest =>
      if isPySpace c ∧ headIsSpace rest then
        ' ' :: collapseWsAux fuel (rest.dropWhile isPySpace)
      else c :: collapseWsAux fuel rest

def collapseWs (s : List Char) : List Char := collapseWsAux s.length s

def isCommaSpace (c : Char) : Bool := c == ',' || c == ' '

/-- `.strip(", ")`. -/
def stripCommaSpace (l : List Char) : List Char :=
  dropEndWhile isCommaSpace (l.dropWhile isCommaSpace)

/-- Steps 4 of `expand_prompt`: duplicate-separator collapse, whitespace
collapse, `strip()`, `strip(", ")`. -/
def cleanupSeparators (s : List Char) : List Char :=
  stripCommaSpace (pyStrip (collapseWs (collapseDupCommas s)))

/-- `expand_prompt` (expander.py lines 296-311). -/
def expandPrompt (corpus : Corpus) (e : Expander) (text : String) (phase : String) :
    String × Expander :=
  if text = "" then ("", e)
  else
    let e0 := resetCounters e
    let (s1, e1) := expandChoicesRec 64 e0 text.data
    let (s2, e2) := expandWildcardsRec corpus 128 e1 phase s1
    let (s3, e3) := expandChoicesRec 64 e2 s2
    (String.mk (cleanupSeparators s3), e3)

/-! ## `_collect_mirrors_deep` (comfy_nodes.py lines 31-78) -/

/-- The `while True` wildcard walk of `_collect_mirrors_deep`.  The source
loop has no iteration bound, so the embedding takes fuel and returns `none`
on exhaustion: source non-termination corresponds to `none` for every fuel.
Note the pick salt `f"wild:{token}:{s}:{start}-{end}"` built from the
surrounding text and match position, and the absence of any variety lane. -/
def mirrorLoop (corpus : Corpus) (dir : String) (seed : Int) :
    Nat → List Char → List String → Option (List Char × List String)
  | 0, _, _ => none
  | fuel + 1, s, bag =>
    match findWildcard s with
    | none => some (s, bag)
    | some (start, stop, tokenChars) =>
      let token := String.mk tokenChars
      let opts := readOptionsForToken dir corpus token
      if opts = [] then mirrorLoop corpus dir seed fuel (s.take start ++ s.drop stop) bag
      else
        let idx := stablePickIndex seed
          ("wild:" ++ token ++ ":" ++ String.mk s ++ ":" ++
            toString start ++ "-" ++ toString stop)
          (Int.ofNat opts.length)
        let chosen :=
          if 0 ≤ idx ∧ idx < Int.ofNat opts.length then (opts.getD idx.toNat "").data
          else []
        let bag' :=
          if endsWithMir token then
            (let others := mirrorOthers opts idx
             if others = [] then bag else bag ++ others)
          else bag
        mirrorLoop corpus dir seed fuel (s.take start ++ chosen ++ s.drop stop) bag'

/-- `_collect_mirrors_deep(text, expander)`: collapse braces with the given
expander (this resets and advances its counters), then walk wildcards,
returning the bag joined with ", " and the expander's final state. -/
def collectMirrorsDeep (corpus : Corpus) (e : Expander) (text : String) (fuel : Nat) :
    Option (String × Expander) :=
  let (s0, e') := collapseChoices e text
  (mirrorLoop corpus e.wildcardDir e.seed fuel s0 []).map
    (fun r => (String.mk (joinCommaSpace r.2), e'))

/-! ## Analysis predicates and concrete corpora used by the theorems -/

/-- All whitespace characters of a string are plain spaces. -/
def wsOnlySpace (x : List Char) : Bool :=
  x.all (fun c => !(isPySpace c) || c == ' ')

/-- The non-whitespace characters of a string, in order. -/
def nonWs (x : List Char) : List Char := x.filter (fun c => !(isPySpace c))

/-- Some two adjacent characters satisfy `f` then `g`. -/
def hasAdjPair (f g : Char → Bool) : List Char → Bool
  | c :: d :: rest => (f c && g d) || hasAdjPair f g (d :: rest)
  | _ => false

def isComma (c : Char) : Bool := c == ','

/-- Three adjacent commas somewhere in the string. -/
def hasTripleComma : List Char → Bool
  | a :: b :: c :: rest => (a == ',' && b == ',' && c == ',') || hasTripleComma (b :: c :: rest)
  | _ => false

/-- The effect of one left-to-right non-overlapping pass of the
duplicate-comma substitution on the non-whitespace skeleton: each leading
adjacent comma pair collapses to one comma. -/
def collapseCommaPairs : List Char → List Char
  | [] => []
  | [c] => [c]
  | c :: d :: rest =>
    if c = ',' ∧ d = ',' then ',' :: collapseCommaPairs rest
    else c :: collapseCommaPairs (d :: rest)

/-- Corpus for C1: a two-option mirror wildcard file. -/
def corpC1 : Corpus := [("c-mir.txt", ["x", "y"])]

/-- Corpus for C2: a cyclically self-referential wildcard file — `a.txt`
contains the single line `__a__`, which resolves to itself. -/
def corpCyc : Corpus := [("a.txt", ["__a__"])]

/-- Corpus for C4: a file named `secrets.txt` inside the wildcard root. -/
def corpSecrets : Corpus := [("secrets.txt", ["x"])]

/-- Corpus for C5's witness: only the non-suffixed file `X.txt` exists. -/
def corpOnlyPlain : Corpus := [("X.txt", ["a"])]

/-- Corpus for C6: a mirror wildcard file with duplicate option values. -/
def corpDup : Corpus := [("t-mir.txt", ["x", "x"])]

/-- Corpus for C7's counterexample: a single line `{a}|{b}` (two sibling
brace blocks joined by a top-level pipe). -/
def corpGreedy : Corpus := [("w.txt", ["\x7ba\x7d|\x7bb\x7d"])]

/-- Corpus for C7's witness: a single fully brace-wrapped line `{a|b}`. -/
def corpWrapped : Corpus := [("v.txt", ["\x7ba|b\x7d"])]

/-- Corpus for C10's witness: a plain multi-line wildcard file. -/
def corpMulti : Corpus := [("m.txt", ["a", "b"])]

/-! ## Theorems -/

/-- A single-option pick is always index 0: `x % 1 = 0` for the hash value. -/
theorem stablePickIndex_one (seed : Int) (salt : String) :
    stablePickIndex seed salt 1 = 0 := by
  have h : ¬ (1 : Int) ≤ 0 := by decide
  simp [stablePickIndex, h, Int.emod_one]

/-- C9: the deterministic selector returns 0 for non-positive option counts,
returns an index in `[0, n)` for positive `n`, and in particular always
returns 0 when there is exactly one option, for every seed and salt. -/
theorem c9_selector_bounds (seed : Int) (salt : String) (n : Int) :
    (n ≤ 0 → stablePickIndex seed salt n = 0) ∧
    (1 ≤ n → 0 ≤ stablePickIndex seed salt n ∧ stablePickIndex seed salt n < n) ∧
    stablePickIndex seed salt 1 = 0 := by
  refine ⟨fun h => by simp [stablePickIndex, h], fun h => ?_, stablePickIndex_one seed salt⟩
  have hn : ¬ n ≤ 0 := by omega
  simp only [stablePickIndex, if_neg hn]
  exact ⟨Int.emod_nonneg _ (by omega), Int.emod_lt_of_pos _ (by omega)⟩

/-- Witness for C9 at concrete inputs. -/
theorem c9_selector_bounds_witness :
    stablePickIndex 7 "salt" (-3) = 0 ∧
    (0 ≤ stablePickIndex 7 "salt" 5 ∧ stablePickIndex 7 "salt" 5 < 5) ∧
    stablePickIndex 7 "salt" 1 = 0 :=
  ⟨(c9_selector_bounds 7 "salt" (-3)).1 (by decide),
   (c9_selector_bounds 7 "salt" 5).2.1 (by decide),
   (c9_selector_bounds 7 "salt" 1).2.2⟩

/-- C3: `expand_prompt(text, "pos")` depends only on the configuration
(seed, wildcard root, variety) and the inputs, not on the instance's current
counter state: the counters are reset at the start of every call, so two
runs on the same instance, or on two instances with equal configuration,
produce the same output string.  (The selector itself is a pure function of
seed and salt — the hash is fully deterministic — so the embedding's
functional determinism models cross-process stability.) -/
theorem c3_expand_deterministic (corpus : Corpus) (seed : Int) (dir : String) (variety : Int)
    (c₁ w₁ c₂ w₂ : Nat) (text : String) :
    (expandPrompt corpus ⟨seed, dir, variety, c₁, w₁⟩ text "pos").1 =
    (expandPrompt corpus ⟨seed, dir, variety, c₂, w₂⟩ text "pos").1 := by
  by_cases h : text = "" <;> simp [expandPrompt, h, resetCounters]

/-- C1 (evidence of the bug at the failing input): with seed 1 and the
wildcard file `c-mir.txt` holding options `x` and `y`, the positive
expansion of `__c-mir__` picks `x` (counter salt `wild#0:c-mir`), and the
expander's own negative phase accordingly yields the complement `y`; but
`_collect_mirrors_deep`, which uses the content-and-position salt
`wild:c-mir:__c-mir__:0-5`, picks the other index, so its mirror bag is
exactly `x` — the very option the positive pass chose — instead of `y`. -/
theorem c1_mirror_salt_divergence :
    (expandPrompt corpC1 (mkExpander 1 "w" 0) "__c-mir__" "pos").1 = "x" ∧
    (expandPrompt corpC1 (mkExpander 1 "w" 0) "__c-mir__" "neg").1 = "y" ∧
    (collectMirrorsDeep corpC1 (mkExpander 1 "w" 0) "__c-mir__" 10).map Prod.fst =
      some "x" := by
  refine ⟨by decide, by decide, by decide⟩

/-- C2: on the cyclic corpus (`a.txt` contains `__a__`) the expander's
wildcard pass stops after its bounded 128 rounds leaving the token as
literal text, but the mirror-derivation walk of `_collect_mirrors_deep` is
an unbounded `while True` loop whose substitution step leaves the string
unchanged, so it never finishes: the fueled embedding returns `none` for
every fuel. -/
theorem c2_mirror_walk_unbounded :
    (∀ fuel : Nat, collectMirrorsDeep corpCyc (mkExpander 0 "w" 0) "__a__" fuel = none) ∧
    (expandPrompt corpCyc (mkExpander 0 "w" 0) "__a__" "pos").1 = "__a__" := by
  constructor
  · have h : ∀ (n : Nat) (bag : List String),
        mirrorLoop corpCyc "w" 0 n ("__a__".data) bag = none := by
      intro n
      induction n with
      | zero => intro bag; rfl
      | succ k ih => intro bag; exact ih bag
    intro fuel
    have hc : collapseChoices ⟨0, "w", 0, 0, 0⟩ "__a__" =
        ("__a__".data, (⟨0, "w", 0, 0, 0⟩ : Expander)) := by decide
    simp [collectMirrorsDeep, mkExpander, hc, h fuel]
  · decide

/-- C4 (counterexample): with a file `secrets.txt` inside the wildcard
root, `resolveOptions("../secrets")` is not empty — the leading `"../"` is
stripped by `lstrip("/.")`, so the token is rewritten to `secrets` and
resolves to the in-root file — contradicting the claim that it returns an
empty list and that any token containing a parent-directory segment is
rejected outright. -/
theorem c4_counterexample :
    readOptionsForToken "w" corpSecrets "../secrets" = ["x"] ∧
    normalizeTokenToPath "w" "../secrets" = some "secrets.txt" := by
  refine ⟨by decide, by decide⟩

/-- C6 (counterexample): for the mirror token `t-mir` with options
`["x", "x"]` (duplicate values), whichever index is chosen, the mirror bag
receives the option at the other position — the string `x`, equal in value
to the chosen option — whereas the claimed value-based set
`{o ∈ O : o ≠ O[i], trim o ≠ ""}` is empty. -/
theorem c6_counterexample :
    (collectMirrorsDeep corpDup (mkExpander 0 "w" 0) "__t-mir__" 10).map Prod.fst =
      some "x" ∧
    (["x", "x"].filter (fun o => !(o == "x") && !(pyStripS o == ""))) = [] := by
  refine ⟨by decide, by decide⟩

/-- C7 (counterexample): for the single-line non-mirror wildcard file with
line `{a}|{b}`, the claimed top-level alternates are `{a}` and `{b}` (the
pipe is enclosed in no brace pair, and nesting inside an alternate must stay
intact), but the code's greedy `fullmatch` strips the outer braces of the
whole line and the depth-tracking split then sees the pipe at depth -1, so
the code returns the single garbled option `a}|{b`. -/
theorem c7_counterexample :
    readOptionsForToken "w" corpGreedy "w" = ["a\x7d|\x7bb"] ∧
    readOptionsForToken "w" corpGreedy "w" ≠ ["\x7ba\x7d", "\x7bb\x7d"] := by
  refine ⟨by decide, by decide⟩

/-- C8 (counterexample): the separator cleanup is not idempotent: on
`a,,,b` the first pass's non-overlapping scan leaves `a, ,b`, and a second
pass collapses that to `a, b`. -/
theorem c8_counterexample :
    cleanupSeparators ("a,,,b".data) = ("a, ,b".data) ∧
    cleanupSeparators (cleanupSeparators ("a,,,b".data)) = ("a, b".data) ∧
    cleanupSeparators (cleanupSeparators ("a,,,b".data)) ≠
      cleanupSeparators ("a,,,b".data) := by
  refine ⟨by decide, by decide, by decide⟩

/-- C5: resolving a mirror-suffixed token `X-mir` consults only the file
that token itself resolves to (`X-mir.txt`): if that file is absent the
result is the empty list, whatever the rest of the corpus — in particular
whatever `X.txt` — contains; and the result is unchanged under any
modification of the corpus that preserves the file at the token's own
resolved path. -/
theorem c5_strict_suffix_lookup (dir : String) (corpus₁ corpus₂ : Corpus) (x : String) :
    (resolveFile dir corpus₁ (x ++ "-mir") = none →
      readOptionsForToken dir corpus₁ (x ++ "-mir") = []) ∧
    ((normalizeTokenToPath dir (x ++ "-mir")).bind (findFile corpus₁) =
        (normalizeTokenToPath dir (x ++ "-mir")).bind (findFile corpus₂) →
      readOptionsForToken dir corpus₁ (x ++ "-mir") =
        readOptionsForToken dir corpus₂ (x ++ "-mir")) := by
  constructor
  · intro h
    simp [readOptionsForToken, h]
  · intro h
    have hres : resolveFile dir corpus₁ (x ++ "-mir") = resolveFile dir corpus₂ (x ++ "-mir") := by
      simp only [resolveFile]
      cases hn : normalizeTokenToPath dir (x ++ "-mir") with
      | none => rfl
      | some p => simpa [hn] using h
    simp only [readOptionsForToken, hres]

/-- Witness for C5: only `X.txt` exists; `X-mir` resolves to nothing and
yields no options, and adding or removing `X.txt` does not change that. -/
theorem c5_strict_suffix_lookup_witness :
    readOptionsForToken "w" corpOnlyPlain ("X" ++ "-mir") = [] ∧
    readOptionsForToken "w" corpOnlyPlain ("X" ++ "-mir") =
      readOptionsForToken "w" [] ("X" ++ "-mir") :=
  ⟨(c5_strict_suffix_lookup "w" corpOnlyPlain [] "X").1 (by decide),
   (c5_strict_suffix_lookup "w" corpOnlyPlain [] "X").2 (by decide)⟩

/-! ### Strip toolkit: generic facts about `dropWhile`/`dropEndWhile` trimming -/

theorem head?_dropWhile_not (p : Char → Bool) :
    ∀ (l : List Char) (c : Char), (l.dropWhile p).head? = some c → p c = false := by
  intro l
  induction l with
  | nil => intro c h; simp at h
  | cons a t ih =>
    intro c h
    by_cases hp : p a
    · rw [List.dropWhile_cons_of_pos hp] at h
      exact ih c h
    · rw [List.dropWhile_cons_of_neg hp] at h
      simp at h
      simp [h] at hp
      simpa using hp

theorem dropEndWhile_nil (p : Char → Bool) : dropEndWhile p [] = [] := rfl

theorem getLast?_dropEndWhile_not (p : Char → Bool) (l : List Char) (c : Char)
    (h : (dropEndWhile p l).getLast? = some c) : p c = false := by
  unfold dropEndWhile at h
  rw [List.getLast?_reverse] at h
  exact head?_dropWhile_not p l.reverse c h

theorem dropWhile_eq_self_of_head (p : Char → Bool) (l : List Char)
    (h : ∀ c, l.head? = some c → p c = false) : l.dropWhile p = l := by
  cases l with
  | nil => rfl
  | cons a t =>
    have := h a rfl
    simp [List.dropWhile_cons, this]

theorem dropEndWhile_eq_self_of_getLast (p : Char → Bool) (l : List Char)
    (h : ∀ c, l.getLast? = some c → p c = false) : dropEndWhile p l = l := by
  unfold dropEndWhile
  rw [dropWhile_eq_self_of_head p l.reverse, List.reverse_reverse]
  intro c hc
  rw [List.head?_reverse] at hc
  exact h c hc

/-- Cons-equation for end-trimming. -/
theorem dropEndWhile_cons (p : Char → Bool) (c : Char) (t : List Char) :
    dropEndWhile p (c :: t) =
      if dropEndWhile p t = [] then (if p c then [] else [c])
      else c :: dropEndWhile p t := by
  unfold dropEndWhile
  rw [List.reverse_cons, List.dropWhile_append]
  by_cases he : (t.reverse.dropWhile p).isEmpty
  · have h0 : t.reverse.dropWhile p = [] := by simpa [List.isEmpty_iff] using he
    rw [if_pos he, if_pos (by simp [h0])]
    by_cases hp : p c <;> simp [List.dropWhile_cons, hp]
  · have h0 : t.reverse.dropWhile p ≠ [] := by simpa [List.isEmpty_iff] using he
    rw [if_neg he, if_neg (by simp [h0])]
    simp

theorem head?_dropEndWhile (p : Char → Bool) (l : List Char) (c : Char)
    (h : (dropEndWhile p l).head? = some c) : l.head? = some c := by
  cases l with
  | nil => simp [dropEndWhile_nil] at h
  | cons a t =>
    rw [dropEndWhile_cons] at h
    by_cases h1 : dropEndWhile p t = []
    · rw [if_pos h1] at h
      by_cases hp : p a
      · simp [hp] at h
      · simp [hp] at h
        simp [h]
    · rw [if_neg h1] at h
      simp at h
      simp [h]

/-- The head of a fully trimmed list fails the predicate. -/
theorem head?_trim_not (p : Char → Bool) (l : List Char) (c : Char)
    (h : (dropEndWhile p (l.dropWhile p)).head? = some c) : p c = false :=
  head?_dropWhile_not p l c (head?_dropEndWhile p (l.dropWhile p) c h)

/-- Trimming both ends is idempotent. -/
theorem trim_trim (p : Char → Bool) (l : List Char) :
    dropEndWhile p ((dropEndWhile p (l.dropWhile p)).dropWhile p) =
      dropEndWhile p (l.dropWhile p) := by
  rw [dropWhile_eq_self_of_head p _ (fun c hc => head?_trim_not p l c hc)]
  exact dropEndWhile_eq_self_of_getLast p _ (fun c hc => getLast?_dropEndWhile_not p _ c hc)

theorem pyStrip_head?_not (l : List Char) (c : Char) (h : (pyStrip l).head? = some c) :
    isPySpace c = false := head?_trim_not isPySpace l c h

theorem pyStrip_getLast?_not (l : List Char) (c : Char) (h : (pyStrip l).getLast? = some c) :
    isPySpace c = false := getLast?_dropEndWhile_not isPySpace _ c h

theorem pyStrip_idem (l : List Char) : pyStrip (pyStrip l) = pyStrip l := by
  unfold pyStrip
  exact trim_trim isPySpace l

/-! ### C10: every returned option is trim-stable; multi-line options are
non-blank non-comments -/

theorem parsedLine_props (line o : String) (h : parsedLine line = some o) :
    pyStrip o.data = o.data ∧ o.data ≠ [] ∧ o.data.head? ≠ some '#' := by
  unfold parsedLine at h
  by_cases h1 : pyStrip (dropEndWhile (fun c => c == '\n' || c == '\r') line.data) = []
  · simp [h1] at h
  · by_cases h2 : (pyStrip (dropEndWhile (fun c => c == '\n' || c == '\r') line.data)).head? =
        some '#'
    · simp [h1, h2] at h
    · simp [h1, h2] at h
      subst h
      exact ⟨pyStrip_idem _, h1, h2⟩

theorem parseLines_props (lines : List String) (o : String) (h : o ∈ parseLines lines) :
    pyStrip o.data = o.data ∧ o.data ≠ [] ∧ o.data.head? ≠ some '#' := by
  unfold parseLines at h
  rw [List.mem_filterMap] at h
  obtain ⟨line, _, hp⟩ := h
  exact parsedLine_props line o hp

theorem splitTLAux_strip : ∀ (s : List Char) (d : Int) (buf a : List Char),
    a ∈ splitTLAux s d buf → ∃ y, a = pyStrip y := by
  intro s
  induction s with
  | nil =>
    intro d buf a h
    simp [splitTLAux] at h
    exact ⟨buf, h⟩
  | cons c rest ih =>
    intro d buf a h
    unfold splitTLAux at h
    split at h
    · rw [List.mem_cons] at h
      rcases h with h | h
      · exact ⟨buf, h⟩
      · exact ih _ _ a h
    · split at h
      · exact ih _ _ a h
      · split at h
        · exact ih _ _ a h
        · exact ih _ _ a h

theorem flattenAux_strip : ∀ (fuel : Nat) (expr a : List Char),
    a ∈ flattenAux fuel expr → ∃ y, a = pyStrip y := by
  intro fuel
  induction fuel with
  | zero =>
    intro expr a h
    simp [flattenAux] at h
    exact ⟨expr, h⟩
  | succ n ih =>
    intro expr a h
    unfold flattenAux at h
    split at h
    · simp at h
      exact ⟨expr, h⟩
    · simp only [List.mem_flatMap, List.mem_map] at h
      obtain ⟨alt, halt, ae, hae, pe, hpe, he⟩ := h
      exact ⟨_, he.symm⟩

theorem dedupAux_strip : ∀ (l seen : List (List Char)) (x : List Char),
    x ∈ dedupAux l seen → ∃ y, x = pyStrip y := by
  intro l
  induction l with
  | nil => intro seen x h; simp [dedupAux] at h
  | cons a rest ih =>
    intro seen x h
    simp only [dedupAux] at h
    split at h
    · exact ih _ x h
    · rw [List.mem_cons] at h
      rcases h with h | h
      · exact ⟨a, h⟩
      · exact ih _ x h

/-- C10: every string returned by `read_options_for_token` equals its own
whitespace-trimmed form, and when the wildcard file has two or more
surviving lines (the multi-line case) every returned option is additionally
non-empty and does not begin with the comment marker `#`. -/
theorem c10_option_invariants (dir : String) (corpus : Corpus) (token o : String)
    (h : o ∈ readOptionsForToken dir corpus token) :
    pyStripS o = o ∧
    (∀ fileLines, resolveFile dir corpus token = some fileLines →
      2 ≤ (parseLines fileLines).length → o ≠ "" ∧ o.data.head? ≠ some '#') := by
  have hd : ∀ (x : String), pyStrip x.data = x.data → pyStripS x = x := by
    intro x hx
    unfold pyStripS
    rw [hx]
  cases hres : resolveFile dir corpus token with
  | none => simp [readOptionsForToken, hres] at h
  | some fileLines =>
    cases hraw : parseLines fileLines with
    | nil => simp [readOptionsForToken, hres, hraw] at h
    | cons line rest =>
      cases rest with
      | nil =>
        -- single-line case: the second conjunct is vacuous
        simp only [readOptionsForToken, hres, hraw] at h
        have hline : pyStrip line.data = line.data :=
          (parseLines_props fileLines line (by rw [hraw]; exact List.mem_singleton_self line)).1
        constructor
        · split at h
          · split at h
            · -- mir flatten branch
              rw [List.mem_map] at h
              obtain ⟨x, hx, hxo⟩ := h
              obtain ⟨y, hy⟩ := dedupAux_strip _ _ x hx
              apply hd
              subst hxo
              simp only [String.data]
              rw [hy, pyStrip_idem]
            · split at h
              · -- top-level alternates branch
                rw [List.mem_map] at h
                obtain ⟨x, hx, hxo⟩ := h
                obtain ⟨y, hy⟩ := splitTLAux_strip _ _ _ x hx
                apply hd
                subst hxo
                simp only [String.data]
                rw [hy, pyStrip_idem]
              · simp at h
                rw [h]
                exact hd line hline
          · simp at h
            rw [h]
            exact hd line hline
        · intro fl hfl hlen
          cases hfl
          rw [hraw] at hlen
          simp at hlen
      | cons l2 rest2 =>
        simp only [readOptionsForToken, hres, hraw] at h
        have hmem : o ∈ parseLines fileLines := by rw [hraw]; exact h
        obtain ⟨h1, h2, h3⟩ := parseLines_props fileLines o hmem
        refine ⟨hd o h1, fun fl hfl _ => ⟨?_, h3⟩⟩
        intro hcon
        subst hcon
        simp at h2

/-- Witness for C10: in the two-line file `m.txt` the option `a` is
trim-stable, non-empty, and not a comment. -/
theorem c10_option_invariants_witness :
    pyStripS "a" = "a" ∧ ("a" : String) ≠ "" ∧ ("a" : String).data.head? ≠ some '#' := by
  have h := c10_option_invariants "w" corpMulti "m" "a" (by decide)
  exact ⟨h.1, h.2 ["a", "b"] (by decide) (by decide)⟩

/-! ### C4: path sanitization and confinement -/

theorem splitOnChar_ne_nil (sep : Char) (l : List Char) : splitOnChar sep l ≠ [] := by
  cases l with
  | nil => simp [splitOnChar]
  | cons c rest =>
    simp only [splitOnChar]
    split
    · simp
    · split <;> simp

theorem sep_not_mem_of_splitOnChar (sep : Char) :
    ∀ (l x : List Char), x ∈ splitOnChar sep l → sep ∉ x := by
  intro l
  induction l with
  | nil =>
    intro x h
    simp [splitOnChar] at h
    subst h
    simp
  | cons c rest ih =>
    intro x h
    by_cases hc : c = sep
    · simp only [splitOnChar, if_pos hc] at h
      rw [List.mem_cons] at h
      rcases h with h | h
      · subst h; simp
      · exact ih x h
    · simp only [splitOnChar, if_neg hc] at h
      cases hsp : splitOnChar sep rest with
      | nil => exact absurd hsp (splitOnChar_ne_nil sep rest)
      | cons p ps =>
        rw [hsp] at h
        rw [List.mem_cons] at h
        rcases h with h | h
        · subst h
          intro hmem
          rw [List.mem_cons] at hmem
          rcases hmem with h1 | h1
          · exact hc h1.symm
          · exact ih p (by rw [hsp]; exact List.mem_cons_self p ps) h1
        · exact ih x (by rw [hsp]; exact List.mem_cons_of_mem p h)

theorem splitOnChar_eq_single (sep : Char) (l : List Char) (h : sep ∉ l) :
    splitOnChar sep l = [l] := by
  induction l with
  | nil => rfl
  | cons c rest ih =>
    have hc : ¬ c = sep := by
      intro he
      exact h (by rw [he]; exact List.mem_cons_self sep rest)
    have hrest : sep ∉ rest := fun hm => h (List.mem_cons_of_mem c hm)
    simp only [splitOnChar, if_neg hc, ih hrest]

theorem splitOnChar_append (sep : Char) (a b : List Char) (hb : sep ∉ b) :
    splitOnChar sep (a ++ b) =
      (splitOnChar sep a).dropLast ++ [(splitOnChar sep a).getLastD [] ++ b] := by
  induction a with
  | nil => simp [splitOnChar, splitOnChar_eq_single sep b hb]
  | cons c rest ih =>
    by_cases hc : c = sep
    · simp only [List.cons_append, splitOnChar, if_pos hc, List.append_eq]
      rw [ih]
      cases hsp : splitOnChar sep rest with
      | nil => exact absurd hsp (splitOnChar_ne_nil sep rest)
      | cons p ps => simp [List.getLastD_cons]
    · simp only [List.cons_append, splitOnChar, if_neg hc, List.append_eq]
      rw [ih]
      cases hsp : splitOnChar sep rest with
      | nil => exact absurd hsp (splitOnChar_ne_nil sep rest)
      | cons p ps =>
        cases ps with
        | nil => simp
        | cons q qs => simp [List.getLastD_cons]

theorem mem_of_mem_dropLast {x : List Char} :
    ∀ {l : List (List Char)}, x ∈ l.dropLast → x ∈ l := by
  intro l
  induction l with
  | nil => intro h; simp at h
  | cons a t ih =>
    intro h
    cases t with
    | nil => simp at h
    | cons b t' =>
      rw [List.dropLast_cons₂, List.mem_cons] at h
      rcases h with h | h
      · rw [h]; exact List.mem_cons_self a _
      · exact List.mem_cons_of_mem a (ih h)

theorem dotdot_not_mem_txt (t : List Char) (h : ['.', '.'] ∉ splitOnChar '/' t) :
    ['.', '.'] ∉ splitOnChar '/' (t ++ ".txt".data) := by
  rw [splitOnChar_append '/' t (".txt".data) (by decide)]
  intro hmem
  rw [List.mem_append] at hmem
  rcases hmem with hm | hm
  · exact h (mem_of_mem_dropLast hm)
  · rw [List.mem_singleton] at hm
    have := congrArg List.length hm
    simp [String.data] at this

/-- The options depend on the token only via its resolved path and its
mirror-suffix status. -/
theorem readOptions_token_congr (dir : String) (corpus : Corpus) (t₁ t₂ : String)
    (hpath : normalizeTokenToPath dir t₁ = normalizeTokenToPath dir t₂)
    (hmir : endsWithMir t₁ = endsWithMir t₂) :
    readOptionsForToken dir corpus t₁ = readOptionsForToken dir corpus t₂ := by
  unfold readOptionsForToken resolveFile
  rw [hpath, hmir]

/-- C4 (amended): a token with a parent-directory segment remaining after
sanitization is rejected (`a/../../b` yields no options); a token's leading
slashes and dots are stripped, so `../secrets` resolves exactly like
`secrets` — inside the root; and every resolved path is a slash-join of
non-empty, slash-free segments none of which is the parent marker `..`, so
no token ever resolves outside the configured root. -/
theorem c4_amended :
    (∀ (dir : String) (corpus : Corpus), readOptionsForToken dir corpus "a/../../b" = []) ∧
    (∀ (dir : String) (corpus : Corpus),
      readOptionsForToken dir corpus "../secrets" = readOptionsForToken dir corpus "secrets") ∧
    (∀ (dir token p : String), normalizeTokenToPath dir token = some p →
      ∃ segs, p.data = intercalateSlash segs ∧ ['.', '.'] ∉ segs ∧
        ∀ s ∈ segs, s ≠ [] ∧ '/' ∉ s) := by
  refine ⟨?_, ?_, ?_⟩
  · intro dir corpus
    by_cases h : dir = ""
    · simp [readOptionsForToken, resolveFile, normalizeTokenToPath, h]
    · have hm : ['.', '.'] ∈
          splitOnChar '/' (lstripSlashDot (replaceBackslash ("a/../../b" : String).data)) := by
        decide
      simp [readOptionsForToken, resolveFile, normalizeTokenToPath, h, hm]
  · intro dir corpus
    apply readOptions_token_congr
    · by_cases h : dir = ""
      · simp [normalizeTokenToPath, h]
      · simp only [normalizeTokenToPath, if_neg h]
        decide
    · decide
  · intro dir token p h
    unfold normalizeTokenToPath at h
    by_cases hdir : dir = ""
    · simp [hdir] at h
    · rw [if_neg hdir] at h
      by_cases hdd : ['.', '.'] ∈
          splitOnChar '/' (lstripSlashDot (replaceBackslash token.data))
      · simp [hdd] at h
      · rw [if_neg hdd] at h
        injection h with h
        refine ⟨normRelSegs (lstripSlashDot (replaceBackslash token.data) ++ ".txt".data),
          ?_, ?_, ?_⟩
        · rw [← h]
          rfl
        · intro hmem
          exact dotdot_not_mem_txt _ hdd (List.mem_of_mem_filter hmem)
        · intro s hs
          constructor
          · have := (List.mem_filter.mp hs).2
            simp at this
            exact this.1
          · exact sep_not_mem_of_splitOnChar '/' _ s (List.mem_of_mem_filter hs)

/-- Witness for C4 (amended) at concrete inputs. -/
theorem c4_amended_witness :
    readOptionsForToken "w" [] "a/../../b" = [] ∧
    readOptionsForToken "w" corpSecrets "../secrets" =
      readOptionsForToken "w" corpSecrets "secrets" ∧
    (∃ segs, ("x/y.txt" : String).data = intercalateSlash segs ∧ ['.', '.'] ∉ segs ∧
      ∀ s ∈ segs, s ≠ [] ∧ '/' ∉ s) :=
  ⟨c4_amended.1 "w" [], c4_amended.2.1 "w" corpSecrets,
   c4_amended.2.2 "w" "x/y" "x/y.txt" (by decide)⟩

/-! ### C6: positional complement characterization -/

theorem enumFrom_filter_map (f : Nat → String → Bool) :
    ∀ (l : List String) (k : Nat),
      ((enumFrom k l).filter (fun q => f q.1 q.2)).map (fun q => q.2) =
      ((List.range l.length).filter (fun j => f (k + j) (l.getD j ""))).map
        (fun j => l.getD j "") := by
  intro l
  induction l with
  | nil => intro k; simp [enumFrom]
  | cons x rest ih =>
    intro k
    rw [show enumFrom k (x :: rest) = (k, x) :: enumFrom (k + 1) rest from rfl]
    rw [List.length_cons, List.range_succ_eq_map, List.filter_cons, List.filter_cons]
    have harith : ∀ j : Nat, k + (j + 1) = (k + 1) + j := fun j => by omega
    have htail :
        (((List.range rest.length).map Nat.succ).filter
            (fun j => f (k + j) ((x :: rest).getD j ""))).map (fun j => (x :: rest).getD j "") =
        ((List.range rest.length).filter (fun j => f ((k + 1) + j) (rest.getD j ""))).map
          (fun j => rest.getD j "") := by
      rw [List.filter_map, List.map_map]
      simp only [Function.comp_def, Nat.succ_eq_add_one, List.getD_cons_succ]
      congr 1
      apply List.filter_congr
      intro a _
      rw [harith a]
    by_cases hf : f k x = true
    · simp only [List.getD_cons_zero, Nat.add_zero, hf, if_true, List.map_cons, htail, ih]
    · have hf' : f k x = false := by simpa using hf
      simp only [List.getD_cons_zero, Nat.add_zero, hf', Bool.false_eq_true, if_false, htail, ih]

/-- C6 (amended): the bag contribution for one mirror-token occurrence is
the positional complement: the options at positions `j ≠ idx` whose trimmed
value is non-empty, in order, one entry per position — so values equal to
the chosen option still enter from other positions, and duplicated values
enter once per position. -/
theorem c6_amended (options : List String) (idx : Int) :
    mirrorOthers options idx =
      ((List.range options.length).filter
        (fun j => (Int.ofNat j != idx) && !(pyStrip ((options.getD j "").data) == []))).map
        (fun j => options.getD j "") := by
  have h := enumFrom_filter_map
    (fun j o => (Int.ofNat j != idx) && !(pyStrip o.data == [])) options 0
  simp only [Nat.zero_add] at h
  simpa [mirrorOthers] using h

/-! ### C7: the single-line brace branch -/

theorem fullmatchBraceLine_iff (l inner : List Char) :
    fullmatchBraceLine l = some inner ↔
      (l = lbrace :: (inner ++ [rbrace]) ∧ '\n' ∉ inner) := by
  constructor
  · intro h
    cases l with
    | nil => simp [fullmatchBraceLine] at h
    | cons c rest =>
      simp only [fullmatchBraceLine] at h
      by_cases hc : c = lbrace ∧ rest ≠ [] ∧ rest.getLast? = some rbrace ∧ '\n' ∉ rest.dropLast
      · rw [if_pos hc] at h
        obtain ⟨h1, h2, h3, h4⟩ := hc
        injection h with h5
        have hlast : rest.getLast h2 = rbrace := by
          have := List.getLast?_eq_getLast rest h2
          rw [this] at h3
          exact (Option.some_inj.mp h3)
        constructor
        · rw [h1, ← h5]
          rw [← hlast]
          rw [List.dropLast_append_getLast h2]
        · rw [← h5]; exact h4
      · rw [if_neg hc] at h
        cases h
  · rintro ⟨h1, h2⟩
    subst h1
    have hcond : lbrace = lbrace ∧ (inner ++ [rbrace]) ≠ [] ∧
        (inner ++ [rbrace]).getLast? = some rbrace ∧ '\n' ∉ (inner ++ [rbrace]).dropLast :=
      ⟨rfl, by simp, by rw [List.getLast?_concat], by rw [List.dropLast_concat]; exact h2⟩
    rw [show fullmatchBraceLine (lbrace :: (inner ++ [rbrace])) =
        (if lbrace = lbrace ∧ (inner ++ [rbrace]) ≠ [] ∧
            (inner ++ [rbrace]).getLast? = some rbrace ∧
            '\n' ∉ (inner ++ [rbrace]).dropLast
         then some (inner ++ [rbrace]).dropLast else none) from rfl]
    rw [if_pos hcond, List.dropLast_concat]

/-- C7 (amended): for a non-mirror token whose file has exactly one
surviving line containing brace characters, the result is: the interior
(first and last characters removed) split at depth-zero pipes when the line
is of the form `{...}` with a newline-free interior — the greedy fullmatch
strips the outer characters even when they are not a matching pair —
and otherwise the whole line as a single option. -/
theorem c7_amended (dir : String) (corpus : Corpus) (token : String)
    (fileLines : List String) (line : String)
    (hres : resolveFile dir corpus token = some fileLines)
    (hraw : parseLines fileLines = [line])
    (hbl : containsChar lbrace line.data = true)
    (hbr : containsChar rbrace line.data = true)
    (hmir : endsWithMir token = false) :
    readOptionsForToken dir corpus token =
      (match fullmatchBraceLine line.data with
       | some inner => (splitTopLevelAlts inner).map String.mk
       | none => [line]) ∧
    (∀ inner, fullmatchBraceLine line.data = some inner ↔
      (line.data = lbrace :: (inner ++ [rbrace]) ∧ '\n' ∉ inner)) := by
  constructor
  · simp only [readOptionsForToken, hres, hraw]
    rw [if_pos ⟨hbl, hbr⟩]
    rw [if_neg (by simp [hmir])]
  · intro inner
    exact fullmatchBraceLine_iff line.data inner

/-- Witness for C7 (amended): the fully wrapped line `{a|b}` resolves to
its two top-level alternates. -/
theorem c7_amended_witness :
    readOptionsForToken "w" corpWrapped "v" = ["a", "b"] := by
  have h := (c7_amended "w" corpWrapped "v" ["\x7ba|b\x7d"] "\x7ba|b\x7d"
    (by decide) (by decide) (by decide) (by decide) (by decide)).1
  rw [h]
  decide


/-! ## C8 amended: idempotence of separator cleanup on tame inputs -/

theorem nonWs_append (a b : List Char) : nonWs (a ++ b) = nonWs a ++ nonWs b := by
  simp [nonWs]

theorem nonWs_allWs (w : List Char) (h : ∀ c ∈ w, isPySpace c = true) : nonWs w = [] := by
  simp only [nonWs, List.filter_eq_nil_iff]
  intro c hc
  simp [h c hc]

theorem nonWs_dropWhile (l : List Char) : nonWs (l.dropWhile isPySpace) = nonWs l := by
  conv_rhs => rw [← List.takeWhile_append_dropWhile (p := isPySpace) (l := l)]
  rw [nonWs_append, nonWs_allWs _ (fun c hc => List.mem_takeWhile_imp hc), List.nil_append]

theorem nonWs_reverse (l : List Char) : nonWs l.reverse = (nonWs l).reverse := by
  simp [nonWs]

theorem nonWs_dropEndWhile (l : List Char) :
    nonWs (dropEndWhile isPySpace l) = nonWs l := by
  unfold dropEndWhile
  rw [nonWs_reverse, nonWs_dropWhile, nonWs_reverse, List.reverse_reverse]

theorem nonWs_pyStrip (l : List Char) : nonWs (pyStrip l) = nonWs l := by
  unfold pyStrip
  rw [nonWs_dropEndWhile, nonWs_dropWhile]

theorem nonWs_head (t : List Char) :
    (nonWs t).head? = (t.dropWhile isPySpace).head? := by
  induction t with
  | nil => rfl
  | cons c rest ih =>
    by_cases hp : isPySpace c
    · rw [List.dropWhile_cons_of_pos hp]
      have : nonWs (c :: rest) = nonWs rest := by simp [nonWs, List.filter_cons, hp]
      rw [this, ih]
    · rw [List.dropWhile_cons_of_neg hp]
      have hp' : isPySpace c = false := by simpa using hp
      have : nonWs (c :: rest) = c :: nonWs rest := by simp [nonWs, List.filter_cons, hp']
      rw [this]
      rfl

theorem nonWs_cons_ws (c : Char) (l : List Char) (h : isPySpace c = true) :
    nonWs (c :: l) = nonWs l := by
  simp [nonWs, List.filter_cons, h]

theorem nonWs_cons_not (c : Char) (l : List Char) (h : isPySpace c = false) :
    nonWs (c :: l) = c :: nonWs l := by
  simp [nonWs, List.filter_cons, h]

/- ------------ matchDupComma facts ------------ -/

theorem matchDupComma_some (s r : List Char) (h : matchDupComma s = some r) :
    nonWs s = ',' :: ',' :: nonWs r ∧ r.length + 2 ≤ s.length := by
  unfold matchDupComma at h
  split at h
  · rename_i c r2 heq1
    split at h
    · rename_i hc
      subst hc
      split at h
      · rename_i d r4 heq2
        split at h
        · rename_i hd
          subst hd
          simp only [Option.some_inj] at h
          subst h
          constructor
          · rw [← nonWs_dropWhile s, heq1, nonWs_cons_not _ _ (by decide),
              ← nonWs_dropWhile r2, heq2, nonWs_cons_not _ _ (by decide), nonWs_dropWhile]
          · have l1 : r2.length + 1 ≤ s.length := by
              have := (List.dropWhile_sublist (l := s) isPySpace).length_le
              rw [heq1] at this
              simpa using this
            have l2 : r4.length + 1 ≤ r2.length := by
              have := (List.dropWhile_sublist (l := r2) isPySpace).length_le
              rw [heq2] at this
              simpa using this
            have l3 : (r4.dropWhile isPySpace).length ≤ r4.length :=
              (List.dropWhile_sublist isPySpace).length_le
            omega
        · cases h
      · cases h
    · cases h
  · cases h

theorem matchDupComma_ws (c : Char) (s : List Char) (h : isPySpace c = true) :
    matchDupComma (c :: s) = matchDupComma s := by
  unfold matchDupComma
  rw [List.dropWhile_cons_of_pos h]

theorem matchDupComma_comma_none (t : List Char) (h : matchDupComma (',' :: t) = none) :
    (nonWs t).head? ≠ some ',' := by
  intro hcon
  rw [nonWs_head] at hcon
  cases h2 : t.dropWhile isPySpace with
  | nil => rw [h2] at hcon; cases hcon
  | cons d r =>
    rw [h2] at hcon
    simp only [List.head?_cons, Option.some_inj] at hcon
    have hx : matchDupComma (',' :: t) =
        (if (',' : Char) = ',' then
          match t.dropWhile isPySpace with
          | d :: r4 => if d = ',' then some (r4.dropWhile isPySpace) else none
          | [] => none
        else none) := by
      unfold matchDupComma
      rw [List.dropWhile_cons_of_neg (by decide)]
    rw [hx, if_pos rfl, h2] at h
    have h3 : (if d = ',' then some (r.dropWhile isPySpace) else none) = none := h
    rw [if_pos hcon] at h3
    cases h3

theorem matchDupComma_subset (s r : List Char) (h : matchDupComma s = some r) :
    ∀ c ∈ r, c ∈ s := by
  unfold matchDupComma at h
  split at h
  · rename_i c r2 heq1
    split at h
    · rename_i hc
      split at h
      · rename_i d r4 heq2
        split at h
        · rename_i hd
          simp only [Option.some_inj] at h
          subst h
          intro x hx
          have h4 : x ∈ r4 := List.dropWhile_subset isPySpace hx
          have hr2 : x ∈ r2 := by
            have hin : x ∈ r2.dropWhile isPySpace := by
              rw [heq2]; exact List.mem_cons_of_mem _ h4
            exact List.dropWhile_subset isPySpace hin
          have hin : x ∈ s.dropWhile isPySpace := by
            rw [heq1]; exact List.mem_cons_of_mem _ hr2
          exact List.dropWhile_subset isPySpace hin
        · cases h
      · cases h
    · cases h
  · cases h

/- ------------ collapseCommaPairs equations ------------ -/

theorem ccp_pair (X : List Char) :
    collapseCommaPairs (',' :: ',' :: X) = ',' :: collapseCommaPairs X := by
  simp [collapseCommaPairs]

theorem ccp_cons_ne (c : Char) (X : List Char) (h : ¬ c = ',') :
    collapseCommaPairs (c :: X) = c :: collapseCommaPairs X := by
  cases X with
  | nil => rfl
  | cons d r =>
    have hn : ¬ (c = ',' ∧ d = ',') := fun hp => h hp.1
    simp only [collapseCommaPairs, if_neg hn]

theorem ccp_comma (X : List Char) (h : X.head? ≠ some ',') :
    collapseCommaPairs (',' :: X) = ',' :: collapseCommaPairs X := by
  cases X with
  | nil => rfl
  | cons d r =>
    have hd : ¬ d = ',' := by
      intro hc
      exact h (by rw [hc]; rfl)
    have hn : ¬ ((',' : Char) = ',' ∧ d = ',') := fun hp => hd hp.2
    rw [show collapseCommaPairs (',' :: d :: r) =
      (if (',' : Char) = ',' ∧ d = ',' then ',' :: collapseCommaPairs r
       else ',' :: collapseCommaPairs (d :: r)) from rfl, if_neg hn]

theorem ccp_head (X : List Char) : (collapseCommaPairs X).head? = X.head? := by
  match X with
  | [] => rfl
  | [c] => rfl
  | c :: d :: rest =>
    by_cases h : c = ',' ∧ d = ','
    · simp only [collapseCommaPairs, if_pos h]
      rw [h.1]
      rfl
    · simp only [collapseCommaPairs, if_neg h]
      rfl

/- ------------ skeleton commutation for the duplicate-comma pass ------------ -/

theorem nonWs_collapseDupCommasAux :
    ∀ (fuel : Nat) (s : List Char), s.length ≤ fuel →
      nonWs (collapseDupCommasAux fuel s) = collapseCommaPairs (nonWs s) := by
  intro fuel
  induction fuel with
  | zero =>
    intro s hs
    have : s = [] := List.length_eq_zero.mp (Nat.le_zero.mp hs)
    subst this
    rfl
  | succ n ih =>
    intro s hs
    cases s with
    | nil => rfl
    | cons c rest =>
      simp only [collapseDupCommasAux]
      cases hm : matchDupComma (c :: rest) with
      | some r =>
        obtain ⟨hnw, hlen⟩ := matchDupComma_some _ _ hm
        have hlc : (!(isPySpace ',')) = true := by decide
        have hls : (!(isPySpace ' ')) = false := by decide
        have hout : nonWs (',' :: ' ' :: collapseDupCommasAux n r) =
            ',' :: nonWs (collapseDupCommasAux n r) := by
          simp [nonWs, List.filter_cons, hlc, hls]
        have hs' : rest.length + 1 ≤ n + 1 := by simpa using hs
        rw [hout, ih r (by simp [List.length_cons] at hlen; omega), hnw, ccp_pair]
      | none =>
        have hlen : rest.length ≤ n := by simp at hs; omega
        by_cases hp : isPySpace c = true
        · rw [nonWs_cons_ws _ _ hp, nonWs_cons_ws _ _ hp, ih rest hlen]
        · have hp' : isPySpace c = false := by simpa using hp
          rw [nonWs_cons_not _ _ hp', nonWs_cons_not _ _ hp', ih rest hlen]
          by_cases hcc : c = ','
          · subst hcc
            exact (ccp_comma _ (matchDupComma_comma_none rest hm)).symm
          · exact (ccp_cons_ne _ _ hcc).symm

/- ------------ adjacency machinery ------------ -/

theorem hap_cons_cons (f g : Char → Bool) (c d : Char) (l : List Char) :
    hasAdjPair f g (c :: d :: l) = ((f c && g d) || hasAdjPair f g (d :: l)) := rfl

theorem hap_append_right (f g : Char → Bool) (b : List Char)
    (h : hasAdjPair f g b = true) : ∀ a, hasAdjPair f g (a ++ b) = true := by
  intro a
  induction a with
  | nil => simpa using h
  | cons c a' ih =>
    rw [List.cons_append]
    cases hab : a' ++ b with
    | nil =>
      have hb : b = [] := (List.append_eq_nil.mp hab).2
      rw [hb] at h
      cases h
    | cons d l' =>
      rw [hap_cons_cons]
      rw [hab] at ih
      rw [ih]
      simp

theorem hap_append_left (f g : Char → Bool) (b : List Char) :
    ∀ a, hasAdjPair f g a = true → hasAdjPair f g (a ++ b) = true := by
  intro a
  induction a with
  | nil => intro h; cases h
  | cons c a' ih =>
    intro h
    cases a' with
    | nil => cases h
    | cons d l =>
      rw [hap_cons_cons] at h
      rw [List.cons_append, List.cons_append, hap_cons_cons]
      rcases Bool.or_eq_true_iff.mp h with h1 | h1
      · rw [h1]; simp
      · have := ih h1
        rw [List.cons_append] at this
        rw [this]
        simp

theorem hap_false_suffix (f g : Char → Bool) (a b : List Char)
    (h : hasAdjPair f g (a ++ b) = false) : hasAdjPair f g b = false := by
  cases hb : hasAdjPair f g b with
  | false => rfl
  | true => rw [hap_append_right f g b hb a] at h; cases h

theorem hap_false_lead (f g : Char → Bool) (a b : List Char)
    (h : hasAdjPair f g (a ++ b) = false) : hasAdjPair f g a = false := by
  cases ha : hasAdjPair f g a with
  | false => rfl
  | true => rw [hap_append_left f g b a ha] at h; cases h

theorem tripleComma_tail (a : Char) (l : List Char)
    (h : hasTripleComma (a :: l) = false) : hasTripleComma l = false := by
  match l with
  | [] => rfl
  | [x] => rfl
  | b :: c :: r =>
    rw [show hasTripleComma (a :: b :: c :: r) =
      ((a == ',' && b == ',' && c == ',') || hasTripleComma (b :: c :: r)) from rfl] at h
    exact (Bool.or_eq_false_iff.mp h).2

theorem adj_ccp :
    ∀ (nn : Nat) (X : List Char), X.length ≤ nn → hasTripleComma X = false →
      hasAdjPair isComma isComma (collapseCommaPairs X) = false := by
  intro nn
  induction nn with
  | zero =>
    intro X hX _
    have : X = [] := List.length_eq_zero.mp (Nat.le_zero.mp hX)
    subst this
    rfl
  | succ n ih =>
    intro X hX htrip
    match X with
    | [] => rfl
    | [c] => rfl
    | c :: d :: rest =>
      by_cases hcd : c = ',' ∧ d = ','
      · simp only [collapseCommaPairs, if_pos hcd]
        have hr : rest.head? ≠ some ',' := by
          intro hcon
          cases rest with
          | nil => cases hcon
          | cons e r' =>
            simp only [List.head?_cons, Option.some_inj] at hcon
            rw [show hasTripleComma (c :: d :: e :: r') =
              ((c == ',' && d == ',' && e == ',') || hasTripleComma (d :: e :: r')) from
                rfl] at htrip
            have : (c == ',' && d == ',' && e == ',') = true := by
              simp [hcd.1, hcd.2, hcon]
            rw [this] at htrip
            cases htrip
        cases hY : collapseCommaPairs rest with
        | nil => rfl
        | cons y ys =>
          rw [hap_cons_cons]
          have hyy : y ≠ ',' := by
            intro hc
            have := ccp_head rest
            rw [hY, List.head?_cons] at this
            exact hr (by rw [← this, hc])
          have h1 : (isComma ',' && isComma y) = false := by
            simp [isComma, hyy]
          rw [h1, ← hY]
          simp only [Bool.false_or]
          have hlen : rest.length ≤ n := by simp at hX; omega
          exact ih rest hlen (tripleComma_tail _ _ (tripleComma_tail _ _ htrip))
      · simp only [collapseCommaPairs, if_neg hcd]
        cases hY : collapseCommaPairs (d :: rest) with
        | nil => rfl
        | cons y ys =>
          have hy : y = d := by
            have := ccp_head (d :: rest)
            rw [hY, List.head?_cons, List.head?_cons] at this
            exact Option.some_inj.mp this
          subst hy
          rw [hap_cons_cons]
          have h1 : (isComma c && isComma y) = false := by
            by_cases hc : c = ','
            · have hdn : ¬ y = ',' := fun hdd => hcd ⟨hc, hdd⟩
              simp [isComma, hdn]
            · simp [isComma, hc]
          rw [h1, ← hY]
          simp only [Bool.false_or]
          have hlen : (y :: rest).length ≤ n := by simp at hX ⊢; omega
          exact ih (y :: rest) hlen (tripleComma_tail _ _ htrip)

/- ------------ whitespace-collapse pass ------------ -/

theorem collapseWsAux_nil (fuel : Nat) : collapseWsAux fuel [] = [] := by
  cases fuel <;> rfl

theorem collapseWsAux_head (fuel : Nat) (z : List Char) (d : Char)
    (hz : z.head? = some d) (hd : isPySpace d = false) :
    (collapseWsAux fuel z).head? = some d := by
  cases fuel with
  | zero => exact hz
  | succ n =>
    cases z with
    | nil => cases hz
    | cons c rest =>
      simp only [List.head?_cons, Option.some_inj] at hz
      have hcond : ¬ (isPySpace d ∧ headIsSpace rest) := by
        intro hp
        rw [hd] at hp
        cases hp.1
      simp only [collapseWsAux, hz, if_neg hcond, List.head?_cons]

theorem nonWs_collapseWsAux :
    ∀ (fuel : Nat) (u : List Char), u.length ≤ fuel →
      nonWs (collapseWsAux fuel u) = nonWs u := by
  intro fuel
  induction fuel with
  | zero =>
    intro u hu
    have : u = [] := List.length_eq_zero.mp (Nat.le_zero.mp hu)
    subst this
    rfl
  | succ n ih =>
    intro u hu
    cases u with
    | nil => rfl
    | cons c rest =>
      have hrest : rest.length ≤ n := by simp at hu; omega
      simp only [collapseWsAux]
      by_cases hcond : isPySpace c ∧ headIsSpace rest
      · rw [if_pos hcond]
        have hw : (rest.dropWhile isPySpace).length ≤ n :=
          le_trans ((List.dropWhile_sublist isPySpace).length_le) hrest
        rw [nonWs_cons_ws _ _ (by decide), ih _ hw, nonWs_dropWhile,
          nonWs_cons_ws _ _ hcond.1]
      · rw [if_neg hcond]
        by_cases hp : isPySpace c = true
        · rw [nonWs_cons_ws _ _ hp, nonWs_cons_ws _ _ hp, ih rest hrest]
        · have hp' : isPySpace c = false := by simpa using hp
          rw [nonWs_cons_not _ _ hp', nonWs_cons_not _ _ hp', ih rest hrest]

theorem noDblWs_collapseWsAux :
    ∀ (fuel : Nat) (u : List Char), u.length ≤ fuel →
      hasAdjPair isPySpace isPySpace (collapseWsAux fuel u) = false := by
  intro fuel
  induction fuel with
  | zero =>
    intro u hu
    have : u = [] := List.length_eq_zero.mp (Nat.le_zero.mp hu)
    subst this
    rfl
  | succ n ih =>
    intro u hu
    cases u with
    | nil => rw [collapseWsAux_nil]; rfl
    | cons c rest =>
      have hrest : rest.length ≤ n := by simp at hu; omega
      simp only [collapseWsAux]
      by_cases hcond : isPySpace c ∧ headIsSpace rest
      · rw [if_pos hcond]
        have hw : (rest.dropWhile isPySpace).length ≤ n :=
          le_trans ((List.dropWhile_sublist isPySpace).length_le) hrest
        cases hY : collapseWsAux n (rest.dropWhile isPySpace) with
        | nil => rfl
        | cons y ys =>
          rw [hap_cons_cons]
          have hyw : isPySpace y = false := by
            cases hdw : rest.dropWhile isPySpace with
            | nil => rw [hdw, collapseWsAux_nil] at hY; cases hY
            | cons e r' =>
              have he : isPySpace e = false :=
                head?_dropWhile_not isPySpace rest e (by rw [hdw]; rfl)
              have := collapseWsAux_head n (e :: r') e rfl he
              rw [← hdw, hY, List.head?_cons] at this
              rw [← Option.some_inj.mp this] at he
              exact he
          have h1 : (isPySpace ' ' && isPySpace y) = false := by
            rw [hyw]
            simp
          rw [h1, ← hY]
          simp only [Bool.false_or]
          exact ih _ hw
      · rw [if_neg hcond]
        cases hY : collapseWsAux n rest with
        | nil => rfl
        | cons y ys =>
          rw [hap_cons_cons]
          have h1 : (isPySpace c && isPySpace y) = false := by
            by_cases hp : isPySpace c = true
            · have hhs : headIsSpace rest = false := by
                cases hh : headIsSpace rest
                · rfl
                · exact absurd ⟨hp, hh⟩ hcond
              cases rest with
              | nil => rw [collapseWsAux_nil] at hY; cases hY
              | cons e r' =>
                have he : isPySpace e = false := hhs
                have := collapseWsAux_head n (e :: r') e rfl he
                rw [hY, List.head?_cons] at this
                rw [← Option.some_inj.mp this] at he
                rw [he]
                simp
            · have hp' : isPySpace c = false := by simpa using hp
              rw [hp']
              simp
          rw [h1, ← hY]
          simp only [Bool.false_or]
          exact ih rest hrest

/- ------------ identity lemmas ------------ -/

theorem collapseDupCommasAux_id :
    ∀ (fuel : Nat) (u : List Char),
      hasAdjPair isComma isComma (nonWs u) = false → collapseDupCommasAux fuel u = u := by
  intro fuel
  induction fuel with
  | zero => intro u _; rfl
  | succ n ih =>
    intro u hu
    cases u with
    | nil => rfl
    | cons c rest =>
      simp only [collapseDupCommasAux]
      cases hm : matchDupComma (c :: rest) with
      | some r =>
        obtain ⟨hnw, _⟩ := matchDupComma_some _ _ hm
        rw [hnw, hap_cons_cons] at hu
        have : (isComma ',' && isComma ',') = true := by decide
        rw [this] at hu
        cases hu
      | none =>
        have hrest : hasAdjPair isComma isComma (nonWs rest) = false := by
          by_cases hp : isPySpace c = true
          · rw [nonWs_cons_ws _ _ hp] at hu
            exact hu
          · have hp' : isPySpace c = false := by simpa using hp
            rw [nonWs_cons_not _ _ hp'] at hu
            exact hap_false_suffix isComma isComma [c] (nonWs rest) hu
        rw [ih rest hrest]

theorem collapseWsAux_id :
    ∀ (fuel : Nat) (u : List Char),
      hasAdjPair isPySpace isPySpace u = false → collapseWsAux fuel u = u := by
  intro fuel
  induction fuel with
  | zero => intro u _; rfl
  | succ n ih =>
    intro u hu
    cases u with
    | nil => rfl
    | cons c rest =>
      simp only [collapseWsAux]
      have hcond : ¬ (isPySpace c ∧ headIsSpace rest) := by
        intro hp
        cases rest with
        | nil => cases hp.2
        | cons d r =>
          rw [hap_cons_cons] at hu
          have hd : isPySpace d = true := hp.2
          rw [hp.1, hd] at hu
          cases hu
      rw [if_neg hcond]
      have hrest : hasAdjPair isPySpace isPySpace rest = false := by
        cases rest with
        | nil => rfl
        | cons d r =>
          rw [hap_cons_cons] at hu
          exact (Bool.or_eq_false_iff.mp hu).2
      rw [ih rest hrest]

/- ------------ membership subsets, ws-only propagation ------------ -/

theorem mem_collapseDupCommasAux :
    ∀ (fuel : Nat) (s : List Char) (c : Char),
      c ∈ collapseDupCommasAux fuel s → c ∈ s ∨ c = ',' ∨ c = ' ' := by
  intro fuel
  induction fuel with
  | zero => intro s c h; exact Or.inl h
  | succ n ih =>
    intro s c h
    cases s with
    | nil => cases h
    | cons a rest =>
      simp only [collapseDupCommasAux] at h
      cases hm : matchDupComma (a :: rest) with
      | some r =>
        rw [hm] at h
        rw [List.mem_cons] at h
        rcases h with h | h
        · exact Or.inr (Or.inl h)
        · rw [List.mem_cons] at h
          rcases h with h | h
          · exact Or.inr (Or.inr h)
          · rcases ih r c h with h | h
            · exact Or.inl (matchDupComma_subset _ _ hm c h)
            · exact Or.inr h
      | none =>
        rw [hm] at h
        rw [List.mem_cons] at h
        rcases h with h | h
        · exact Or.inl (by rw [h]; exact List.mem_cons_self a rest)
        · rcases ih rest c h with h | h
          · exact Or.inl (List.mem_cons_of_mem a h)
          · exact Or.inr h

theorem mem_collapseWsAux :
    ∀ (fuel : Nat) (u : List Char) (c : Char),
      c ∈ collapseWsAux fuel u → c ∈ u ∨ c = ' ' := by
  intro fuel
  induction fuel with
  | zero => intro u c h; exact Or.inl h
  | succ n ih =>
    intro u c h
    cases u with
    | nil => cases h
    | cons a rest =>
      simp only [collapseWsAux] at h
      by_cases hcond : isPySpace a ∧ headIsSpace rest
      · rw [if_pos hcond] at h
        rw [List.mem_cons] at h
        rcases h with h | h
        · exact Or.inr h
        · rcases ih _ c h with h | h
          · exact Or.inl (List.mem_cons_of_mem a (List.dropWhile_subset isPySpace h))
          · exact Or.inr h
      · rw [if_neg hcond] at h
        rw [List.mem_cons] at h
        rcases h with h | h
        · exact Or.inl (by rw [h]; exact List.mem_cons_self a rest)
        · rcases ih rest c h with h | h
          · exact Or.inl (List.mem_cons_of_mem a h)
          · exact Or.inr h

def WsSpace (x : List Char) : Prop := ∀ c ∈ x, isPySpace c = true → c = ' '

theorem wsSpace_collapseDupCommas (s : List Char) (h : WsSpace s) :
    WsSpace (collapseDupCommas s) := by
  intro c hc hw
  rcases mem_collapseDupCommasAux _ _ c hc with h1 | h1 | h1
  · exact h c h1 hw
  · rw [h1] at hw; cases hw
  · exact h1

theorem wsSpace_collapseWs (s : List Char) (h : WsSpace s) :
    WsSpace (collapseWs s) := by
  intro c hc hw
  rcases mem_collapseWsAux _ _ c hc with h1 | h1
  · exact h c h1 hw
  · exact h1

theorem mem_dropEndWhile (p : Char → Bool) (l : List Char) (c : Char)
    (h : c ∈ dropEndWhile p l) : c ∈ l := by
  unfold dropEndWhile at h
  rw [List.mem_reverse] at h
  have := List.dropWhile_subset p h
  rw [List.mem_reverse] at this
  exact this

theorem wsSpace_trim (p : Char → Bool) (l : List Char) (h : WsSpace l) :
    WsSpace (dropEndWhile p (l.dropWhile p)) := by
  intro c hc hw
  exact h c (List.dropWhile_subset p (mem_dropEndWhile p _ c hc)) hw

/- ------------ decompositions for adjacency closure ------------ -/

theorem dropEndWhile_decomp (p : Char → Bool) (x : List Char) :
    dropEndWhile p x ++ (x.reverse.takeWhile p).reverse = x := by
  have : (dropEndWhile p x ++ (x.reverse.takeWhile p).reverse).reverse = x.reverse := by
    rw [List.reverse_append, List.reverse_reverse]
    unfold dropEndWhile
    rw [List.reverse_reverse]
    exact List.takeWhile_append_dropWhile p x.reverse
  have h2 := congrArg List.reverse this
  rw [List.reverse_reverse, List.reverse_reverse] at h2
  exact h2

theorem hap_false_dropWhile (f g : Char → Bool) (q : Char → Bool) (x : List Char)
    (h : hasAdjPair f g x = false) : hasAdjPair f g (x.dropWhile q) = false := by
  have hd := List.takeWhile_append_dropWhile (p := q) (l := x)
  rw [← hd] at h
  exact hap_false_suffix f g _ _ h

theorem hap_false_dropEndWhile (f g : Char → Bool) (q : Char → Bool) (x : List Char)
    (h : hasAdjPair f g x = false) : hasAdjPair f g (dropEndWhile q x) = false := by
  have hd := dropEndWhile_decomp q x
  rw [← hd] at h
  exact hap_false_lead f g _ _ h

theorem hapNW_false_dropWhile (f g : Char → Bool) (q : Char → Bool) (x : List Char)
    (h : hasAdjPair f g (nonWs x) = false) :
    hasAdjPair f g (nonWs (x.dropWhile q)) = false := by
  have hd := List.takeWhile_append_dropWhile (p := q) (l := x)
  rw [← hd, nonWs_append] at h
  exact hap_false_suffix f g _ _ h

theorem hapNW_false_dropEndWhile (f g : Char → Bool) (q : Char → Bool) (x : List Char)
    (h : hasAdjPair f g (nonWs x) = false) :
    hasAdjPair f g (nonWs (dropEndWhile q x)) = false := by
  have hd := dropEndWhile_decomp q x
  rw [← hd, nonWs_append] at h
  exact hap_false_lead f g _ _ h

/- ------------ final assembly ------------ -/

theorem mem_of_head?_eq (l : List Char) (c : Char) (h : l.head? = some c) : c ∈ l := by
  cases l with
  | nil => cases h
  | cons a t =>
    simp only [List.head?_cons, Option.some_inj] at h
    rw [← h]
    exact List.mem_cons_self a t

theorem mem_of_getLast?_eq (l : List Char) (c : Char) (h : l.getLast? = some c) : c ∈ l := by
  rcases List.getLast?_eq_some_iff.mp h with ⟨l2, rfl⟩
  simp

/-- A string fixed by each of the four cleanup stages is fixed by the whole
cleanup. -/
theorem cleanupSeparators_eq_self (t : List Char)
    (hA : hasAdjPair isComma isComma (nonWs t) = false)
    (hD : hasAdjPair isPySpace isPySpace t = false)
    (hW : WsSpace t)
    (hqh : ∀ c, t.head? = some c → isCommaSpace c = false)
    (hql : ∀ c, t.getLast? = some c → isCommaSpace c = false) :
    cleanupSeparators t = t := by
  have hph : ∀ c, t.head? = some c → isPySpace c = false := by
    intro c hc
    by_cases hw : isPySpace c = true
    · have hsp : c = ' ' := hW c (mem_of_head?_eq t c hc) hw
      have := hqh c hc
      rw [hsp] at this
      exact absurd this (by decide)
    · simpa using hw
  have hpl : ∀ c, t.getLast? = some c → isPySpace c = false := by
    intro c hc
    by_cases hw : isPySpace c = true
    · have hsp : c = ' ' := hW c (mem_of_getLast?_eq t c hc) hw
      have := hql c hc
      rw [hsp] at this
      exact absurd this (by decide)
    · simpa using hw
  have e1 : collapseDupCommas t = t := collapseDupCommasAux_id t.length t hA
  have e2 : collapseWs t = t := collapseWsAux_id t.length t hD
  have e3 : pyStrip t = t := by
    unfold pyStrip
    rw [dropWhile_eq_self_of_head isPySpace t hph]
    exact dropEndWhile_eq_self_of_getLast isPySpace t hpl
  have e4 : stripCommaSpace t = t := by
    unfold stripCommaSpace
    rw [dropWhile_eq_self_of_head isCommaSpace t hqh]
    exact dropEndWhile_eq_self_of_getLast isCommaSpace t hql
  unfold cleanupSeparators
  rw [e1, e2, e3, e4]

theorem cleanup_idem_chars (s : List Char)
    (h1 : WsSpace s)
    (h2 : hasTripleComma (nonWs s) = false) :
    cleanupSeparators (cleanupSeparators s) = cleanupSeparators s := by
  -- skeleton and whitespace facts down the pipeline
  have hA1 : hasAdjPair isComma isComma (nonWs (collapseDupCommas s)) = false := by
    rw [show collapseDupCommas s = collapseDupCommasAux s.length s from rfl,
      nonWs_collapseDupCommasAux s.length s (le_refl _)]
    exact adj_ccp (nonWs s).length (nonWs s) (le_refl _) h2
  have hW1 : WsSpace (collapseDupCommas s) := wsSpace_collapseDupCommas s h1
  have hA2 : hasAdjPair isComma isComma
      (nonWs (collapseWs (collapseDupCommas s))) = false := by
    rw [show collapseWs (collapseDupCommas s) =
      collapseWsAux (collapseDupCommas s).length (collapseDupCommas s) from rfl,
      nonWs_collapseWsAux _ _ (le_refl _)]
    exact hA1
  have hD2 : hasAdjPair isPySpace isPySpace (collapseWs (collapseDupCommas s)) = false :=
    noDblWs_collapseWsAux _ _ (le_refl _)
  have hW2 : WsSpace (collapseWs (collapseDupCommas s)) := wsSpace_collapseWs _ hW1
  have hA3 : hasAdjPair isComma isComma
      (nonWs (pyStrip (collapseWs (collapseDupCommas s)))) = false := by
    rw [nonWs_pyStrip]
    exact hA2
  have hD3 : hasAdjPair isPySpace isPySpace
      (pyStrip (collapseWs (collapseDupCommas s))) = false := by
    unfold pyStrip
    exact hap_false_dropEndWhile _ _ _ _ (hap_false_dropWhile _ _ _ _ hD2)
  have hW3 : WsSpace (pyStrip (collapseWs (collapseDupCommas s))) :=
    wsSpace_trim isPySpace _ hW2
  have hA4 : hasAdjPair isComma isComma (nonWs (cleanupSeparators s)) = false := by
    unfold cleanupSeparators stripCommaSpace
    exact hapNW_false_dropEndWhile _ _ _ _ (hapNW_false_dropWhile _ _ _ _ hA3)
  have hD4 : hasAdjPair isPySpace isPySpace (cleanupSeparators s) = false := by
    unfold cleanupSeparators stripCommaSpace
    exact hap_false_dropEndWhile _ _ _ _ (hap_false_dropWhile _ _ _ _ hD3)
  have hW4 : WsSpace (cleanupSeparators s) := by
    unfold cleanupSeparators stripCommaSpace
    exact wsSpace_trim isCommaSpace _ hW3
  have hqh : ∀ c, (cleanupSeparators s).head? = some c → isCommaSpace c = false := by
    intro c hc
    unfold cleanupSeparators stripCommaSpace at hc
    exact head?_trim_not isCommaSpace _ c hc
  have hql : ∀ c, (cleanupSeparators s).getLast? = some c → isCommaSpace c = false := by
    intro c hc
    unfold cleanupSeparators stripCommaSpace at hc
    exact getLast?_dropEndWhile_not isCommaSpace _ c hc
  exact cleanupSeparators_eq_self (cleanupSeparators s) hA4 hD4 hW4 hqh hql

theorem wsSpace_of_bool (s : List Char) (h : wsOnlySpace s = true) : WsSpace s := by
  intro c hc hw
  have := List.all_eq_true.mp h c hc
  simp only [Bool.or_eq_true, Bool.not_eq_true', beq_iff_eq] at this
  cases this with
  | inl h1 => rw [h1] at hw; cases hw
  | inr h2 => exact h2

/-- C8: the separator-cleanup step is idempotent on strings whose whitespace
characters are all plain spaces and which contain no three commas pairwise
separated only by whitespace. -/
theorem c8_amended (s : String) (h1 : wsOnlySpace s.data = true)
    (h2 : hasTripleComma (nonWs s.data) = false) :
    cleanupSeparators (cleanupSeparators s.data) = cleanupSeparators s.data :=
  cleanup_idem_chars s.data (wsSpace_of_bool s.data h1) h2

theorem c8_amended_witness :
    wsOnlySpace "a,, b ,c".data = true ∧
      hasTripleComma (nonWs "a,, b ,c".data) = false ∧
      cleanupSeparators (cleanupSeparators "a,, b ,c".data) =
        cleanupSeparators "a,, b ,c".data :=
  ⟨by decide, by decide, c8_amended "a,, b ,c" (by decide) (by decide)⟩

end DynPrompt
